import Mathlib

/-!
# Verification of the pitch-perfecter noise-gating and pitch-tracking core

Shallow embedding of the streaming noise-gating / pitch-tracking pipeline of the
`pitch-perfecter` repository, together with proofs of the specified properties.

Conventions of the embedding:

* `f32` samples, magnitudes and decibel values are modelled as real numbers (`ℝ`),
  and complex FFT bins as `ℂ`; exact real arithmetic idealises float rounding.
* Rust's `usize` saturating subtraction coincides with truncated `Nat` subtraction.
* The FFT of the external `rustfft` crate is modelled by its documented semantics:
  an unnormalised forward discrete Fourier transform with kernel
  `exp (-2 pi I j k / N)` and an unnormalised inverse transform with kernel
  `exp (2 pi I j k / N)`.
* The one place where IEEE-754 division semantics is observable (a z-score
  compared against `-1.0` where the divisor may be `0`, producing `-inf`/`NaN`
  in `f32`) is modelled explicitly by `zscore_below_neg_one`.
-/

noncomputable section

open Complex

/-! ## Spectral transform (`src/signal/types.rs`) -/

/-- Unnormalised forward DFT of a complex buffer, with the FFT size equal to the
buffer length, as computed by `compute_spectrum` via `rustfft`'s forward FFT:
bin `k` is `sum_j x_j * exp (-2 pi I j k / N)`. -/
def dftList (x : List ℂ) : List ℂ :=
  List.ofFn fun k : Fin x.length =>
    ∑ j : Fin x.length,
      x.get j * Complex.exp (-(2 * Real.pi * Complex.I) * j.val * k.val / x.length)

/-- `Spectrum` struct: the full complex spectrum together with the FFT size. -/
structure Spectrum where
  complex : List ℂ
  n : ℕ

/-- `Spectrum::from_waveform`: forward-transform a real signal; the FFT size is
the signal length. -/
def Spectrum.from_waveform (signal : List ℝ) : Spectrum :=
  { complex := dftList (signal.map Complex.ofReal), n := signal.length }

/-- `Spectrum::magnitudes`: Euclidean norms of the first `n / 2` bins. -/
def Spectrum.magnitudes (s : Spectrum) : List ℝ :=
  (s.complex.take (s.n / 2)).map Complex.abs

/-- `Spectrum::to_time_domain`: unnormalised inverse FFT of the stored bins
(`rustfft` inverse kernel `exp (2 pi I k i / n)`), keeping the real part of each
output sample divided by the FFT size `n`. -/
def Spectrum.to_time_domain (s : Spectrum) : List ℝ :=
  List.ofFn fun i : Fin s.complex.length =>
    (∑ k : Fin s.complex.length,
        s.complex.get k * Complex.exp ((2 * Real.pi * Complex.I) * k.val * i.val / s.n)).re / s.n

/-! ## Spectral gate (`crates/audio-cleaning/src/spectral_gating.rs`) -/

/-- `SpectralGateConfig`. -/
structure SpectralGateConfig where
  noise_threshold_db : ℝ
  smoothing_window : ℕ

/-- `db_to_linear`: `10 ^ (db / 20)` (real power, as `f32::powf`). -/
def db_to_linear (db : ℝ) : ℝ :=
  Real.rpow 10 (db / 20)

/-- `SpectralGate::smooth_magnitudes`: moving-average smoothing.  The source
pushes, for each `i` below the array length, the mean of the slice from
`i.saturating_sub(half_window)` (truncated `Nat` subtraction) to
`min (i + half_window + 1) len`; the push loop is modelled as a map over
`List.range`. -/
def smooth_magnitudes (magnitudes : List ℝ) (window_size : ℕ) : List ℝ :=
  (List.range magnitudes.length).map fun i =>
    let half_window := window_size / 2
    let start := i - half_window
    let stop := min (i + half_window + 1) magnitudes.length
    (((magnitudes.drop start).take (stop - start)).sum) / ((stop - start : ℕ) : ℝ)

/-- `SpectralGate::compute_noise_magnitudes_static`: per-bin norms of the noise
spectrum, smoothed only when the configured window exceeds `1`. -/
def compute_noise_magnitudes (noise_spectrum : Spectrum) (config : SpectralGateConfig) : List ℝ :=
  let magnitudes := noise_spectrum.complex.map Complex.abs
  if config.smoothing_window ≤ 1 then magnitudes
  else smooth_magnitudes magnitudes config.smoothing_window

/-- `SpectralGate` state: noise spectrum, derived magnitude array, configuration. -/
structure SpectralGate where
  noise_spectrum : Spectrum
  noise_magnitudes : List ℝ
  config : SpectralGateConfig

/-- `SpectralGate::new`: derives the magnitude array synchronously. -/
def SpectralGate.new (noise_spectrum : Spectrum) (config : SpectralGateConfig) : SpectralGate :=
  { noise_spectrum := noise_spectrum
    noise_magnitudes := compute_noise_magnitudes noise_spectrum config
    config := config }

/-- Body of the per-bin loop of `SpectralGate::apply_gate`: `noise_level` is the
stored noise magnitude for the bin, the threshold is `noise_level` times the
linear multiplier, and a bin below threshold is scaled componentwise by the
clamped ratio (gain `1` when no noise reference exists for the bin). -/
def gate_bin (noise_level threshold_multiplier : ℝ) (c : ℂ) : ℂ :=
  let signal_magnitude := Complex.abs c
  let threshold := noise_level * threshold_multiplier
  if signal_magnitude < threshold then
    let gain : ℝ :=
      if noise_level > 0 then min (max (signal_magnitude / threshold) 0) 1 else 1
    ⟨c.re * gain, c.im * gain⟩
  else c

/-- `SpectralGate::apply_gate`: the in-place loop over `iter_mut().enumerate()`
is modelled as the elementwise construction of the updated bin list; absent
noise magnitudes (`get(i) ... unwrap_or(0.0)`) default to `0`. -/
def SpectralGate.apply_gate (g : SpectralGate) (l : List ℂ) (threshold_multiplier : ℝ) :
    List ℂ :=
  List.ofFn fun i : Fin l.length =>
    gate_bin (g.noise_magnitudes.getD i.val 0) threshold_multiplier (l.get i)

/-- `SpectralGate::process`: empty input short-circuits; otherwise the input is
forward-transformed, gated per bin, inverse-transformed, and truncated to the
input length. -/
def SpectralGate.process (g : SpectralGate) (samples : List ℝ) : List ℝ :=
  if samples.isEmpty then []
  else
    let threshold_multiplier := db_to_linear g.config.noise_threshold_db
    let spectrum := Spectrum.from_waveform samples
    let gated : Spectrum :=
      { complex := g.apply_gate spectrum.complex threshold_multiplier, n := spectrum.n }
    let output := gated.to_time_domain
    output.take samples.length

/-! ## Windowing / segmentation (`src/strided_chunks.rs`, `src/audio/types.rs`) -/

/-- `StridedChunks` iterator state. -/
structure StridedChunks (α : Type) where
  data : List α
  chunk_size : ℕ
  step_size : ℕ
  current_index : ℕ

/-- `StridedChunks::new`. -/
def StridedChunks.new {α : Type} (data : List α) (chunk_size step_size : ℕ) :
    StridedChunks α :=
  ⟨data, chunk_size, step_size, 0⟩

/-- One call of `StridedChunks::next`: yields the current full chunk and the
advanced iterator, or nothing when the next chunk would run past the end of the
buffer (in which case the iterator state is unchanged). -/
def StridedChunks.next {α : Type} (it : StridedChunks α) :
    Option (List α × StridedChunks α) :=
  if it.data.length < it.current_index + it.chunk_size then none
  else some ((it.data.drop it.current_index).take it.chunk_size,
             { it with current_index := it.current_index + it.step_size })

/-- Result of the `(k+1)`-st call of `next` on iterator state `it` (a `none`
result leaves the state unchanged, so every later call also returns `none`). -/
def StridedChunks.nthNext {α : Type} (it : StridedChunks α) : ℕ → Option (List α)
  | 0 => it.next.map Prod.fst
  | k + 1 =>
    match it.next with
    | none => none
    | some (_, it') => it'.nthNext k

/-- `MonoAudio`: a mono sample buffer with its sample rate. -/
structure MonoAudio where
  samples : List ℝ
  sample_rate : ℕ

/-- `SlidingWindows` iterator state. -/
structure SlidingWindows where
  samples : List ℝ
  sample_rate : ℕ
  window_size : ℕ
  step_size : ℕ
  position : ℕ

/-- `MonoAudio::sliding_windows`. -/
def MonoAudio.sliding_windows (a : MonoAudio) (window_size step_size : ℕ) :
    SlidingWindows :=
  ⟨a.samples, a.sample_rate, window_size, step_size, 0⟩

/-- One call of `SlidingWindows::next`: yields a full window (tagged with the
sample rate) and the advanced iterator, or nothing when a full window no longer
fits. -/
def SlidingWindows.next (it : SlidingWindows) : Option (MonoAudio × SlidingWindows) :=
  if it.samples.length < it.position + it.window_size then none
  else some (⟨(it.samples.drop it.position).take it.window_size, it.sample_rate⟩,
             { it with position := it.position + it.step_size })

/-- Result of the `(k+1)`-st call of `SlidingWindows::next`. -/
def SlidingWindows.nthNext (it : SlidingWindows) : ℕ → Option MonoAudio
  | 0 => it.next.map Prod.fst
  | k + 1 =>
    match it.next with
    | none => none
    | some (_, it') => it'.nthNext k

/-- Drain the sliding-window iterator into a list, with an explicit bound on the
number of iterations.  Any fuel of at least `samples.length + 1` is enough to
exhaust the iterator whenever `step_size > 0`; a `for` loop over the iterator is
faithfully modelled by `collect (samples.length + 1)` in that case. -/
def SlidingWindows.collect : ℕ → SlidingWindows → List MonoAudio
  | 0, _ => []
  | fuel + 1, it =>
    match it.next with
    | none => []
    | some (w, it') => w :: it'.collect fuel

/-! ## Pitch tracker (`src/pitch_tracking/tracking.rs`) -/

/-- `Pitch`: a frequency estimate with a clarity score. -/
structure Pitch where
  frequency : ℝ
  clarity : ℝ

/-- `PitchTracker` state: the external detector is modelled as a function from a
window to an optional pitch estimate. -/
structure PitchTracker where
  detector : MonoAudio → Option Pitch
  window_size : ℕ
  step_size : ℕ

/-- `PitchTracker::pitches`: iterate the sliding windows, pushing the detected
frequency for each window and `0.0` when the detector returns no estimate. -/
def PitchTracker.pitches (t : PitchTracker) (audio : MonoAudio) : List ℝ :=
  ((audio.sliding_windows t.window_size t.step_size).collect (audio.samples.length + 1)).map
    fun w =>
      match t.detector w with
      | some pitch => pitch.frequency
      | none => 0

/-! ## Latency harness (`crates/audio-utils/src/latency.rs`)

Instants are modelled as natural-number timestamps and durations as natural
numbers; `Instant::duration_since` saturates at zero, which is truncated `Nat`
subtraction. -/

/-- `LatencyMetrics`. -/
structure LatencyMetrics where
  callback_timestamp : Option ℕ
  processing_start : Option ℕ
  processing_end : Option ℕ
  input_device_latency : Option ℕ

/-- `LatencyMetrics::processing_duration`. -/
def LatencyMetrics.processing_duration (m : LatencyMetrics) : Option ℕ :=
  match m.processing_start, m.processing_end with
  | some start, some stop => some (stop - start)
  | _, _ => none

/-- `LatencyMetrics::total_latency`. -/
def LatencyMetrics.total_latency (m : LatencyMetrics) : Option ℕ :=
  match m.callback_timestamp, m.processing_end with
  | some callback, some stop => some (stop - callback)
  | _, _ => none

/-- `LatencyMetrics::end_to_end_latency`. -/
def LatencyMetrics.end_to_end_latency (m : LatencyMetrics) : Option ℕ :=
  match m.total_latency, m.input_device_latency with
  | some total, some device => some (total + device)
  | some total, none => some total
  | none, some device => some device
  | none, none => none

/-! ## Statistics helpers (`crates/audio-cleaning/src/util.rs`) -/

/-- `rms`: root mean square of a signal, `none` on an empty signal. -/
def rms (signal : List ℝ) : Option ℝ :=
  if signal.isEmpty then none
  else some (Real.sqrt ((signal.map fun x => x * x).sum / signal.length))

/-- `mean`: `none` on empty data. -/
def mean (data : List ℝ) : Option ℝ :=
  if 0 < data.length then some (data.sum / data.length) else none

/-- `mean_std_deviation`: mean and population standard deviation. -/
def mean_std_deviation (data : List ℝ) : Option (ℝ × ℝ) :=
  match mean data with
  | none => none
  | some mean_value =>
    some (mean_value,
      Real.sqrt ((data.map fun v => (mean_value - v) * (mean_value - v)).sum / data.length))

/-! ## Quiet-segment detection (`crates/audio-cleaning/src/cleaning.rs`) -/

/-- Rust's `slice::chunks`: consecutive chunks of length `n`, the final chunk
possibly shorter.  (`get_noise_window` only calls it with `n > 0`.) -/
def chunksList {α : Type} (l : List α) (n : ℕ) : List (List α) :=
  if h : n = 0 ∨ l.length = 0 then []
  else (l.take n) :: chunksList (l.drop n) n
  termination_by l.length
  decreasing_by
    simp only [List.length_drop]
    omega

/-- The acceptance test `noise_window_zscore < -1.0` of `get_noise_window`,
where `noise_window_zscore = (x - m) / s` is computed in `f32`.  The standard
deviation `s` is always nonnegative; when it is `0` the `f32` quotient is
`-inf` (accepted) for `x < m`, `NaN` (rejected) for `x = m` and `+inf`
(rejected) for `x > m`, which is captured by the `s = 0` branch. -/
def zscore_below_neg_one (x m s : ℝ) : Prop :=
  if s = 0 then x < m else (x - m) / s < -1

instance (x m s : ℝ) : Decidable (zscore_below_neg_one x m s) := by
  unfold zscore_below_neg_one
  infer_instance

/-- `get_noise_window`: the candidate quiet window is the region between 200 ms
and 1500 ms (capped at the buffer end; `as usize` truncates, which is `Nat.floor`
for nonnegative values).  The RMS of every chunk of the buffer of the candidate's
length (final chunk possibly shorter) is collected; the candidate is returned
exactly when its RMS z-score against the mean and standard deviation of those
values is below `-1.0`.  The two `unwrap` calls in the source cannot fail (chunks
of a nonempty buffer are nonempty), and are modelled by `Option.getD`. -/
def get_noise_window (samples : List ℝ) (sample_rate : ℝ) : Option (List ℝ) :=
  let start_idx := ⌊(0.2 : ℝ) * sample_rate⌋₊
  let end_idx := ⌊min ((1.5 : ℝ) * sample_rate) (samples.length : ℝ)⌋₊
  if end_idx ≤ start_idx then none
  else
    let noise_window := (samples.drop start_idx).take (end_idx - start_idx)
    let window_size := noise_window.length
    if window_size = 0 then none
    else
      let all_windows_rms := (chunksList samples window_size).map fun chunk => (rms chunk).getD 0
      let ms := (mean_std_deviation all_windows_rms).getD (0, 0)
      match rms noise_window with
      | none => none
      | some noise_window_rms =>
        if zscore_below_neg_one noise_window_rms ms.1 ms.2 then some noise_window
        else none

/-- `_estimate_noise_spectrum`: forward-transform the located quiet window. -/
def estimate_noise_spectrum (samples : List ℝ) (sample_rate : ℝ) : Option Spectrum :=
  match get_noise_window samples sample_rate with
  | none => none
  | some noise_window => some (Spectrum.from_waveform noise_window)

/-! ## Specification-side definitions

The following definitions are written from the specification's words, not from
the source; they are compared against the source-derived definitions above in
the refinement theorems below. -/

/-- Spec reading of the chunking used by the quiet-segment search: every
non-overlapping chunk of the buffer whose size equals `n` exactly (no shorter
final chunk). -/
def full_chunks (l : List ℝ) (n : ℕ) : List (List ℝ) :=
  (List.range (l.length / n)).map fun k => (l.drop (k * n)).take n

/-- Closed-form description of Rust's `slice::chunks`: `ceil (len / n)` chunks
of `n` consecutive elements each, the final chunk possibly shorter. -/
def chunks_spec (l : List ℝ) (n : ℕ) : List (List ℝ) :=
  (List.range ((l.length + n - 1) / n)).map fun k => (l.drop (k * n)).take n

/-- The quiet-segment search as the specification states it: candidate window
between 200 ms and 1500 ms (capped at the buffer end), statistics over the RMS
of every non-overlapping chunk of the buffer whose size equals the candidate's
length exactly, acceptance exactly when the candidate's RMS z-score is below
`-1.0`. -/
def get_noise_window_claimed (samples : List ℝ) (sample_rate : ℝ) : Option (List ℝ) :=
  let start_idx := ⌊(0.2 : ℝ) * sample_rate⌋₊
  let end_idx := ⌊min ((1.5 : ℝ) * sample_rate) (samples.length : ℝ)⌋₊
  if end_idx ≤ start_idx then none
  else
    let noise_window := (samples.drop start_idx).take (end_idx - start_idx)
    let window_size := noise_window.length
    if window_size = 0 then none
    else
      let all_windows_rms := (full_chunks samples window_size).map fun chunk => (rms chunk).getD 0
      let ms := (mean_std_deviation all_windows_rms).getD (0, 0)
      match rms noise_window with
      | none => none
      | some noise_window_rms =>
        if zscore_below_neg_one noise_window_rms ms.1 ms.2 then some noise_window
        else none

/-- The quiet-segment search as the amended claim states it: as in
`get_noise_window_claimed`, except that the statistics run over every
non-overlapping chunk of the buffer of the candidate's length with the final
chunk possibly shorter (`chunks_spec`). -/
def get_noise_window_spec (samples : List ℝ) (sample_rate : ℝ) : Option (List ℝ) :=
  let start_idx := ⌊(0.2 : ℝ) * sample_rate⌋₊
  let end_idx := ⌊min ((1.5 : ℝ) * sample_rate) (samples.length : ℝ)⌋₊
  if end_idx ≤ start_idx then none
  else
    let noise_window := (samples.drop start_idx).take (end_idx - start_idx)
    let window_size := noise_window.length
    if window_size = 0 then none
    else
      let all_windows_rms := (chunks_spec samples window_size).map fun chunk => (rms chunk).getD 0
      let ms := (mean_std_deviation all_windows_rms).getD (0, 0)
      match rms noise_window with
      | none => none
      | some noise_window_rms =>
        if zscore_below_neg_one noise_window_rms ms.1 ms.2 then some noise_window
        else none

/-- Mean of the magnitudes over the index window `[i - w/2, i + w/2]` clamped to
the array bounds (the amended description of one smoothed bin): the window has
width `2 * (w / 2) + 1` in the interior and is shorter at the edges. -/
def centered_window_mean (magnitudes : List ℝ) (w i : ℕ) : ℝ :=
  let window := Finset.Icc (i - w / 2) (min (i + w / 2) (magnitudes.length - 1))
  (∑ j ∈ window, magnitudes.getD j 0) / (window.card : ℝ)

/-- Number of full windows of size `w` at stride `s` that fit in a buffer of
length `len` (the count of indices `k` with `k * s + w ≤ len`, for `s > 0`). -/
def window_count (len w s : ℕ) : ℕ :=
  if w ≤ len then (len - w) / s + 1 else 0

/-! ## Helper lemmas -/

theorem dftList_length (x : List ℂ) : (dftList x).length = x.length := by
  simp [dftList]

theorem to_time_domain_length (s : Spectrum) : s.to_time_domain.length = s.complex.length := by
  simp [Spectrum.to_time_domain]

theorem apply_gate_length (g : SpectralGate) (l : List ℂ) (m : ℝ) :
    (g.apply_gate l m).length = l.length := by
  simp [SpectralGate.apply_gate]

theorem from_waveform_complex_length (w : List ℝ) :
    (Spectrum.from_waveform w).complex.length = w.length := by
  simp only [Spectrum.from_waveform]
  rw [dftList_length, List.length_map]

theorem stridedChunks_nthNext_shifted {α : Type} (data : List α) (c s : ℕ) (hs : 0 < s)
    (k pos : ℕ) :
    StridedChunks.nthNext ⟨data, c, s, pos⟩ k =
      if pos + k * s + c ≤ data.length
        then some ((data.drop (pos + k * s)).take c) else none := by
  induction k generalizing pos with
  | zero =>
    simp only [StridedChunks.nthNext, StridedChunks.next, Nat.zero_mul, Nat.add_zero]
    split_ifs with h1 h2 <;> first | rfl | omega
  | succ k ih =>
    have h3 : pos + s + k * s = pos + (k + 1) * s := by ring
    simp only [StridedChunks.nthNext, StridedChunks.next]
    by_cases h1 : data.length < pos + c
    · simp only [if_pos h1]
      rw [if_neg (by omega)]
    · simp only [if_neg h1]
      rw [ih (pos + s), h3]

theorem slidingWindows_nthNext_shifted (samples : List ℝ) (rate w s : ℕ) (hs : 0 < s)
    (k pos : ℕ) :
    SlidingWindows.nthNext ⟨samples, rate, w, s, pos⟩ k =
      if pos + k * s + w ≤ samples.length
        then some ⟨(samples.drop (pos + k * s)).take w, rate⟩ else none := by
  induction k generalizing pos with
  | zero =>
    simp only [SlidingWindows.nthNext, SlidingWindows.next, Nat.zero_mul, Nat.add_zero]
    split_ifs with h1 h2 <;> first | rfl | omega
  | succ k ih =>
    have h3 : pos + s + k * s = pos + (k + 1) * s := by ring
    simp only [SlidingWindows.nthNext, SlidingWindows.next]
    by_cases h1 : samples.length < pos + w
    · simp only [if_pos h1]
      rw [if_neg (by omega)]
    · simp only [if_neg h1]
      rw [ih (pos + s), h3]

/-! ## Claim C2: empty input law and length preservation of the gate -/

/-- C2.  For every gate state, `SpectralGate::process` of an empty input returns
an empty output by the early-return branch (no transform is invoked), and for
every input the returned waveform has exactly the length of the input. -/
theorem spectral_gate_empty_and_length (g : SpectralGate) :
    g.process [] = [] ∧ ∀ samples : List ℝ, (g.process samples).length = samples.length := by
  constructor
  · rfl
  · intro samples
    by_cases h : samples.isEmpty
    · rw [List.isEmpty_iff] at h
      subst h
      rfl
    · simp only [SpectralGate.process, h, Bool.false_eq_true, if_false, List.length_take,
        to_time_domain_length, apply_gate_length, from_waveform_complex_length]
      omega

/-! ## Claim C9: end-to-end latency derivation -/

/-- C9.  `end_to_end_latency` is the sum of total and device latency when both
are present, the present one when exactly one is present, and absent otherwise;
`total_latency` is `processing_end - callback_arrival` and is present exactly
when both timestamps are; a record with only a 5 ms device latency yields
exactly 5 ms. -/
theorem latency_end_to_end_cases (m : LatencyMetrics) :
    (∀ t d, m.total_latency = some t → m.input_device_latency = some d →
      m.end_to_end_latency = some (t + d))
  ∧ (∀ t, m.total_latency = some t → m.input_device_latency = none →
      m.end_to_end_latency = some t)
  ∧ (∀ d, m.total_latency = none → m.input_device_latency = some d →
      m.end_to_end_latency = some d)
  ∧ (m.total_latency = none → m.input_device_latency = none →
      m.end_to_end_latency = none)
  ∧ (∀ c e, m.callback_timestamp = some c → m.processing_end = some e →
      m.total_latency = some (e - c))
  ∧ (m.callback_timestamp = none ∨ m.processing_end = none → m.total_latency = none)
  ∧ LatencyMetrics.end_to_end_latency ⟨none, none, none, some 5⟩ = some 5 := by
  refine ⟨?_, ?_, ?_, ?_, ?_, ?_, rfl⟩
  · intro t d ht hd
    simp [LatencyMetrics.end_to_end_latency, ht, hd]
  · intro t ht hd
    simp [LatencyMetrics.end_to_end_latency, ht, hd]
  · intro d ht hd
    simp [LatencyMetrics.end_to_end_latency, ht, hd]
  · intro ht hd
    simp [LatencyMetrics.end_to_end_latency, ht, hd]
  · intro c e hc he
    simp [LatencyMetrics.total_latency, hc, he]
  · rintro (hc | he)
    · simp [LatencyMetrics.total_latency, hc]
    · simp [LatencyMetrics.total_latency, he]

/-- Witness for C9 at a concrete record: callback at 2, processing end at 10,
device latency 5, so the end-to-end latency is `(10 - 2) + 5 = 13`. -/
theorem latency_end_to_end_cases_witness :
    LatencyMetrics.end_to_end_latency ⟨some 2, none, some 10, some 5⟩ = some 13 :=
  (latency_end_to_end_cases ⟨some 2, none, some 10, some 5⟩).1 8 5 rfl rfl

/-! ## Claim C3: windowing yields exactly the full strided segments -/

/-- C3.  For positive window and step sizes, both windowing iterators yield, on
their `(k+1)`-st call, exactly the length-`window` slice at offset `k * step`
when it fits entirely in the buffer, and nothing otherwise (no partial or
padded final window; an oversized window yields an empty sequence). -/
theorem windowing_yields_exact_segments {α : Type} (data : List α) (audio : MonoAudio)
    (c s : ℕ) (hc : 0 < c) (hs : 0 < s) (k : ℕ) :
    (StridedChunks.new data c s).nthNext k =
      (if k * s + c ≤ data.length then some ((data.drop (k * s)).take c) else none)
  ∧ (audio.sliding_windows c s).nthNext k =
      (if k * s + c ≤ audio.samples.length
        then some ⟨(audio.samples.drop (k * s)).take c, audio.sample_rate⟩ else none) := by
  constructor
  · simpa using stridedChunks_nthNext_shifted data c s hs k 0
  · simpa using slidingWindows_nthNext_shifted audio.samples audio.sample_rate c s hs k 0

/-- Witness for C3: buffer `[1,2,3,4,5,6]` with window 2 and step 2 yields
`[3,4]` as its second segment, and a length-4 buffer with window 2 and step 1
yields `[2,3]` as its second segment. -/
theorem windowing_yields_exact_segments_witness :
    (StridedChunks.new [1, 2, 3, 4, 5, 6] 2 2).nthNext 1 = some [3, 4]
  ∧ (StridedChunks.new [(1 : ℤ), 2, 3, 4] 2 1).nthNext 1 = some [2, 3] := by
  constructor
  · have h := (windowing_yields_exact_segments [1, 2, 3, 4, 5, 6] ⟨[], 0⟩ 2 2
      (by decide) (by decide) 1).1
    rw [h]
    decide
  · have h := (windowing_yields_exact_segments [(1 : ℤ), 2, 3, 4] ⟨[], 0⟩ 2 1
      (by decide) (by decide) 1).1
    rw [h]
    decide

/-! ## Claim C10: zero step size never terminates -/

/-- C10.  Neither windowing iterator checks positivity of the step size: with
step 0 and a window that fits the (non-empty) buffer, every call of `next`
yields the same first window at offset 0, so the yielded sequence is infinite. -/
theorem windowing_zero_step_nonterminating {α : Type} (data : List α) (audio : MonoAudio)
    (c : ℕ) (hdata : data ≠ []) (hc : c ≤ data.length)
    (haudio : audio.samples ≠ []) (hca : c ≤ audio.samples.length) (k : ℕ) :
    (StridedChunks.new data c 0).nthNext k = some (data.take c)
  ∧ (audio.sliding_windows c 0).nthNext k = some ⟨audio.samples.take c, audio.sample_rate⟩ := by
  have hnext : (StridedChunks.new data c 0).next =
      some (data.take c, StridedChunks.new data c 0) := by
    simp only [StridedChunks.new, StridedChunks.next]
    rw [if_neg (by omega)]
    simp
  have hnext' : (audio.sliding_windows c 0).next =
      some (⟨audio.samples.take c, audio.sample_rate⟩, audio.sliding_windows c 0) := by
    simp only [MonoAudio.sliding_windows, SlidingWindows.next]
    rw [if_neg (by omega)]
    simp
  constructor
  · induction k with
    | zero => simp [StridedChunks.nthNext, hnext]
    | succ k ih =>
      simp only [StridedChunks.nthNext, hnext]
      exact ih
  · induction k with
    | zero => simp [SlidingWindows.nthNext, hnext']
    | succ k ih =>
      simp only [SlidingWindows.nthNext, hnext']
      exact ih

/-! ## Claim C1: the per-bin gating rule -/

theorem apply_gate_getD (g : SpectralGate) (l : List ℂ) (m : ℝ) (i : ℕ) (hi : i < l.length) :
    (g.apply_gate l m).getD i 0 =
      gate_bin (g.noise_magnitudes.getD i 0) m (l.get ⟨i, hi⟩) := by
  rw [List.getD_eq_getElem _ 0 (by rw [apply_gate_length]; exact hi)]
  simp only [SpectralGate.apply_gate]
  rw [List.getElem_ofFn]

/-- C1.  `process` gates each bin of the forward transform with the linear
threshold multiplier `10 ^ (noise_threshold_db / 20)`; per bin, with
`noise_level` the stored noise magnitude (0 beyond the profile) and
`threshold = noise_level * multiplier`: a bin at or above threshold is
untouched, a bin below threshold with positive noise level is scaled
componentwise by `clamp (magnitude / threshold) 0 1`, and a bin with zero noise
level is always left unmodified (the ratio is formed only in the positive-noise
branch, so the gain computation never divides by a zero threshold). -/
theorem spectral_gate_bin_rule (g : SpectralGate) (samples : List ℝ) (l : List ℂ)
    (i : ℕ) (hi : i < l.length) (hne : samples ≠ []) :
    db_to_linear g.config.noise_threshold_db =
      Real.rpow 10 (g.config.noise_threshold_db / 20)
  ∧ g.process samples =
      (Spectrum.to_time_domain
        { complex :=
            g.apply_gate (Spectrum.from_waveform samples).complex
              (db_to_linear g.config.noise_threshold_db),
          n := samples.length }).take samples.length
  ∧ (g.noise_magnitudes.getD i 0 * db_to_linear g.config.noise_threshold_db ≤
        Complex.abs (l.get ⟨i, hi⟩) →
      (g.apply_gate l (db_to_linear g.config.noise_threshold_db)).getD i 0 = l.get ⟨i, hi⟩)
  ∧ (Complex.abs (l.get ⟨i, hi⟩) <
        g.noise_magnitudes.getD i 0 * db_to_linear g.config.noise_threshold_db →
      0 < g.noise_magnitudes.getD i 0 →
      (g.apply_gate l (db_to_linear g.config.noise_threshold_db)).getD i 0 =
        ⟨(l.get ⟨i, hi⟩).re *
            min (max (Complex.abs (l.get ⟨i, hi⟩) /
              (g.noise_magnitudes.getD i 0 * db_to_linear g.config.noise_threshold_db)) 0) 1,
          (l.get ⟨i, hi⟩).im *
            min (max (Complex.abs (l.get ⟨i, hi⟩) /
              (g.noise_magnitudes.getD i 0 * db_to_linear g.config.noise_threshold_db)) 0) 1⟩)
  ∧ (g.noise_magnitudes.getD i 0 = 0 →
      (g.apply_gate l (db_to_linear g.config.noise_threshold_db)).getD i 0 = l.get ⟨i, hi⟩) := by
  refine ⟨rfl, ?_, ?_, ?_, ?_⟩
  · simp only [SpectralGate.process, List.isEmpty_iff, hne, if_false]
    rfl
  · intro h
    rw [apply_gate_getD g l _ i hi]
    simp only [gate_bin]
    rw [if_neg (not_lt.2 h)]
  · intro h hn
    rw [apply_gate_getD g l _ i hi]
    simp only [gate_bin]
    rw [if_pos h, if_pos hn]
  · intro hn
    rw [apply_gate_getD g l _ i hi]
    simp only [gate_bin, hn, zero_mul]
    rw [if_neg ((Complex.abs.nonneg _).not_lt)]

/-- Witness for C1: a gate with noise magnitude 2 and threshold 0 dB leaves the
bin `3` (magnitude 3, at or above the threshold 2) untouched. -/
theorem spectral_gate_bin_rule_witness :
    (SpectralGate.mk ⟨[], 0⟩ [2] ⟨0, 1⟩).noise_magnitudes.getD 0 0 * db_to_linear 0 ≤
      Complex.abs (3 : ℂ)
  ∧ ((SpectralGate.mk ⟨[], 0⟩ [2] ⟨0, 1⟩).apply_gate [(3 : ℂ)] (db_to_linear 0)).getD 0 0 =
      (3 : ℂ) := by
  have h0 : db_to_linear 0 = 1 := by
    rw [db_to_linear, zero_div]
    exact Real.rpow_zero 10
  have hyp : (SpectralGate.mk ⟨[], 0⟩ [2] ⟨0, 1⟩).noise_magnitudes.getD 0 0 * db_to_linear 0 ≤
      Complex.abs (3 : ℂ) := by
    simp only [SpectralGate.mk.injEq, h0]
    norm_num [Complex.abs_ofNat]
  exact ⟨hyp,
    (spectral_gate_bin_rule (SpectralGate.mk ⟨[], 0⟩ [2] ⟨0, 1⟩) [1] [(3 : ℂ)] 0
      (by norm_num) (by simp)).2.2.1 hyp⟩

/-! ## Claim C4: noise-magnitude smoothing -/

theorem slice_getD_sum (l : List ℝ) (a b : ℕ) (hab : a ≤ b) (hb : b ≤ l.length) :
    ((l.drop a).take (b - a)).sum = ∑ j ∈ Finset.Ico a b, l.getD j 0 := by
  have hslice : (l.drop a).take (b - a) = List.ofFn (fun k : Fin (b - a) => l.getD (a + k) 0) := by
    apply List.ext_getElem
    · simp only [List.length_take, List.length_drop, List.length_ofFn]
      omega
    · intro i h1 h2
      rw [List.getElem_ofFn]
      rw [List.getElem_take, List.getElem_drop]
      rw [List.getD_eq_getElem l 0 (by simp only [List.length_take, List.length_drop] at h1; omega)]
  rw [hslice, List.sum_ofFn, Finset.sum_Ico_eq_sum_range, ← Fin.sum_univ_eq_sum_range]

theorem smooth_magnitudes_length (mags : List ℝ) (w : ℕ) :
    (smooth_magnitudes mags w).length = mags.length := by
  simp [smooth_magnitudes]

theorem smooth_magnitudes_getD (mags : List ℝ) (w i : ℕ) (hi : i < mags.length) :
    (smooth_magnitudes mags w).getD i 0 = centered_window_mean mags w i := by
  rw [List.getD_eq_getElem _ 0 (by rw [smooth_magnitudes_length]; exact hi)]
  simp only [smooth_magnitudes]
  rw [List.getElem_map, List.getElem_range]
  simp only [centered_window_mean]
  have hIcc : Finset.Icc (i - w / 2) (min (i + w / 2) (mags.length - 1)) =
      Finset.Ico (i - w / 2) (min (i + w / 2 + 1) mags.length) := by
    rw [← Nat.Ico_succ_right]
    congr 1
    omega
  rw [hIcc, ← slice_getD_sum mags _ _ (by omega) (by omega), Nat.card_Ico]

/-- C4 (amended).  With `smoothing_window <= 1` the computed noise-magnitude
array is exactly the raw per-bin magnitudes (the smoothing branch is not
taken); with `smoothing_window > 1` each bin is the mean of the magnitudes over
the clamped index window `[i - w/2, i + w/2]` — of width `2*(w/2) + 1` in the
interior (equal to `w` only for odd `w`), shorter at the edges, with no
wraparound or zero padding. -/
theorem compute_noise_magnitudes_characterization (sp : Spectrum) (cfg : SpectralGateConfig) :
    (cfg.smoothing_window ≤ 1 →
      compute_noise_magnitudes sp cfg = sp.complex.map Complex.abs)
  ∧ (1 < cfg.smoothing_window → ∀ i, i < sp.complex.length →
      (compute_noise_magnitudes sp cfg).getD i 0 =
        centered_window_mean (sp.complex.map Complex.abs) cfg.smoothing_window i) := by
  constructor
  · intro h
    simp [compute_noise_magnitudes, h]
  · intro h i hi
    simp only [compute_noise_magnitudes]
    rw [if_neg (by omega)]
    exact smooth_magnitudes_getD _ _ _ (by simpa using hi)

/-- Counterexample to C4 as stated: for the noise spectrum with bins
`[1, 0, 4]` and even smoothing window `2`, the computed middle bin is `5/3`,
the mean of the *three* magnitudes `1, 0, 4`; but every window of width at most
the claimed `smoothing_window = 2` that contains the interior bin 1 (bins
`{0,1}`, bins `{1,2}`, or bin `{1}` alone) has mean `1/2`, `2` or `0`, none of
which is `5/3`.  So the smoothed bin is not the mean of a centered window of
width `smoothing_window`. -/
theorem smoothing_even_window_counterexample :
    (compute_noise_magnitudes ⟨[1, 0, 4], 3⟩ ⟨6, 2⟩).getD 1 0 = 5 / 3
  ∧ (Complex.abs 1 + Complex.abs 0) / 2 ≠ (5 : ℝ) / 3
  ∧ (Complex.abs 0 + Complex.abs 4) / 2 ≠ (5 : ℝ) / 3
  ∧ Complex.abs 0 ≠ (5 : ℝ) / 3 := by
  refine ⟨?_, by norm_num, by norm_num [Complex.abs_ofNat], by norm_num⟩
  simp only [compute_noise_magnitudes, smooth_magnitudes]
  norm_num [Complex.abs_ofNat, List.range_succ]

/-- Witness for C4 at concrete inputs: window 1 is the identity on the raw bins
of `[1, 0, 4]`, and with window 3 the middle bin is the centered-window mean. -/
theorem compute_noise_magnitudes_characterization_witness :
    compute_noise_magnitudes ⟨[1, 0, 4], 3⟩ ⟨6, 1⟩ = [(1 : ℂ), 0, 4].map Complex.abs
  ∧ (compute_noise_magnitudes ⟨[1, 0, 4], 3⟩ ⟨6, 3⟩).getD 1 0 =
      centered_window_mean ([(1 : ℂ), 0, 4].map Complex.abs) 3 1 := by
  constructor
  · exact (compute_noise_magnitudes_characterization ⟨[1, 0, 4], 3⟩ ⟨6, 1⟩).1 (by norm_num)
  · exact (compute_noise_magnitudes_characterization ⟨[1, 0, 4], 3⟩ ⟨6, 3⟩).2 (by norm_num) 1
      (by simp)

/-! ## Claim C8: one pitch per segment -/

theorem collect_eq_range (samples : List ℝ) (rate w s : ℕ) (hs : 0 < s) :
    ∀ fuel pos : ℕ, samples.length + 1 ≤ fuel + pos →
      SlidingWindows.collect fuel ⟨samples, rate, w, s, pos⟩ =
        (List.range
            (if pos + w ≤ samples.length
              then (samples.length - (pos + w)) / s + 1 else 0)).map
          fun k => ⟨(samples.drop (pos + k * s)).take w, rate⟩ := by
  intro fuel
  induction fuel with
  | zero =>
    intro pos hpos
    rw [if_neg (by omega)]
    rfl
  | succ fuel ih =>
    intro pos hpos
    simp only [SlidingWindows.collect, SlidingWindows.next]
    by_cases h1 : samples.length < pos + w
    · simp only [if_pos h1]
      rw [if_neg (by omega)]
      rfl
    · simp only [if_neg h1]
      rw [ih (pos + s) (by omega)]
      have hcnt : (if pos + w ≤ samples.length
            then (samples.length - (pos + w)) / s + 1 else 0)
          = (if pos + s + w ≤ samples.length
              then (samples.length - (pos + s + w)) / s + 1 else 0) + 1 := by
        rw [if_pos (by omega)]
        by_cases h2 : pos + s + w ≤ samples.length
        · rw [if_pos h2]
          have h4 : samples.length - (pos + w) = (samples.length - (pos + s + w)) + s := by
            omega
          rw [h4, Nat.add_div_right _ hs]
        · rw [if_neg h2]
          rw [Nat.div_eq_of_lt (by omega)]
      rw [hcnt, List.range_succ_eq_map]
      simp only [List.map_cons, List.map_map]
      congr 1
      · simp
      · apply List.map_congr_left
        intro k _
        have h5 : pos + s + k * s = pos + (k + 1) * s := by ring
        simp [Function.comp, h5]

/-- C8.  With a positive step, `PitchTracker::pitches` returns exactly one real
frequency per window segment, in segment order: the detector's frequency when
it returns an estimate and `0.0` when it returns none; a detector returning
none never aborts or shortens the sequence. -/
theorem pitch_tracker_one_pitch_per_segment (t : PitchTracker) (audio : MonoAudio)
    (hs : 0 < t.step_size) :
    t.pitches audio =
      (List.range (window_count audio.samples.length t.window_size t.step_size)).map
        fun k =>
          match t.detector
              ⟨(audio.samples.drop (k * t.step_size)).take t.window_size,
                audio.sample_rate⟩ with
          | some pitch => pitch.frequency
          | none => 0 := by
  simp only [PitchTracker.pitches, MonoAudio.sliding_windows]
  rw [collect_eq_range audio.samples audio.sample_rate t.window_size t.step_size hs
    (audio.samples.length + 1) 0 (by omega)]
  rw [List.map_map]
  simp only [window_count, Nat.zero_add]
  apply List.map_congr_left
  intro k _
  simp

/-- Witness for C8: a constant detector on a 6-sample buffer with window 2 and
step 2 yields exactly the three per-segment frequencies. -/
theorem pitch_tracker_one_pitch_per_segment_witness :
    0 < 2
  ∧ PitchTracker.pitches ⟨fun _ => some ⟨123, 1⟩, 2, 2⟩ ⟨[1, 2, 3, 4, 5, 6], 44100⟩ =
      [123, 123, 123] := by
  refine ⟨by decide, ?_⟩
  rw [pitch_tracker_one_pitch_per_segment ⟨fun _ => some ⟨123, 1⟩, 2, 2⟩
    ⟨[1, 2, 3, 4, 5, 6], 44100⟩ (by decide)]
  norm_num [window_count, List.range_succ]

/-! ## Claim C5: FFT round trip -/

theorem dftList_getElem (x : List ℂ) (k : ℕ) (hk : k < (dftList x).length) :
    (dftList x)[k] = ∑ j ∈ Finset.range x.length,
      x.getD j 0 * Complex.exp (-(2 * Real.pi * Complex.I) * j * k / x.length) := by
  simp only [dftList] at hk ⊢
  rw [List.getElem_ofFn]
  rw [← Fin.sum_univ_eq_sum_range
    (fun j => x.getD j 0 * Complex.exp (-(2 * Real.pi * Complex.I) * j * k / x.length))
    x.length]
  apply Finset.sum_congr rfl
  intro j _
  rw [List.getD_eq_getElem x 0 j.isLt, List.get_eq_getElem]

theorem to_time_domain_getElem (s : Spectrum) (i : ℕ) (hi : i < s.to_time_domain.length) :
    s.to_time_domain[i] = (∑ k ∈ Finset.range s.complex.length,
      s.complex.getD k 0 * Complex.exp ((2 * Real.pi * Complex.I) * k * i / s.n)).re / s.n := by
  simp only [Spectrum.to_time_domain] at hi ⊢
  rw [List.getElem_ofFn]
  congr 2
  rw [← Fin.sum_univ_eq_sum_range
    (fun k => s.complex.getD k 0 * Complex.exp ((2 * Real.pi * Complex.I) * k * i / s.n))
    s.complex.length]
  apply Finset.sum_congr rfl
  intro k _
  rw [List.getD_eq_getElem s.complex 0 k.isLt, List.get_eq_getElem]

theorem dft_kernel_orthogonal (N : ℕ) (i j : ℕ) (hi : i < N) (hj : j < N) :
    ∑ k ∈ Finset.range N,
        Complex.exp (-(2 * Real.pi * Complex.I) * j * k / N) *
          Complex.exp ((2 * Real.pi * Complex.I) * k * i / N) =
      if j = i then (N : ℂ) else 0 := by
  have hN : 0 < N := by omega
  have hNC : (N : ℂ) ≠ 0 := Nat.cast_ne_zero.mpr hN.ne'
  set ζ : ℂ := Complex.exp (2 * Real.pi * Complex.I / N) with hζ
  have hterm : ∀ k : ℕ,
      Complex.exp (-(2 * Real.pi * Complex.I) * j * k / N) *
        Complex.exp ((2 * Real.pi * Complex.I) * k * i / N) =
      (ζ ^ ((i : ℤ) - (j : ℤ))) ^ k := by
    intro k
    rw [← Complex.exp_add]
    have harg : -(2 * Real.pi * Complex.I) * j * k / N +
        (2 * Real.pi * Complex.I) * k * i / N =
        (((k : ℤ) * ((i : ℤ) - (j : ℤ)) : ℤ) : ℂ) * (2 * Real.pi * Complex.I / N) := by
      push_cast
      ring
    rw [harg, Complex.exp_int_mul, mul_comm (k : ℤ) _, zpow_mul, zpow_natCast]
  rw [Finset.sum_congr rfl fun k _ => hterm k]
  by_cases hij : j = i
  · subst hij
    simp [Finset.sum_const]
  · rw [if_neg hij]
    have hζprim : IsPrimitiveRoot ζ N := Complex.isPrimitiveRoot_exp N hN.ne'
    have hdne : ((i : ℤ) - (j : ℤ)) ≠ 0 := by
      intro h
      apply hij
      omega
    have hzd : ζ ^ ((i : ℤ) - (j : ℤ)) ≠ 1 := by
      intro h
      have hdvd := (hζprim.zpow_eq_one_iff_dvd _).mp h
      have hle : (N : ℤ) ≤ |(i : ℤ) - (j : ℤ)| :=
        Int.le_of_dvd (abs_pos.mpr hdne) ((dvd_abs _ _).mpr hdvd)
      have habs : |(i : ℤ) - (j : ℤ)| < N := by
        rw [abs_sub_lt_iff]
        omega
      omega
    rw [geom_sum_eq hzd]
    have hpow : (ζ ^ ((i : ℤ) - (j : ℤ))) ^ N = 1 := by
      rw [← zpow_natCast _ N, ← zpow_mul, mul_comm, zpow_mul, zpow_natCast,
        hζprim.pow_eq_one, one_zpow]
    rw [hpow]
    simp

/-- C5.  Inverse-transforming the forward transform of a real waveform of
length `N` (`to_time_domain` divides each unnormalised inverse-FFT output by
`N`) yields a sequence of length `N` that reproduces every input sample; in the
exact-arithmetic model the round trip is exact, hence within the claimed `1e-5`
absolute error. -/
theorem spectrum_round_trip (w : List ℝ) (i : ℕ) (hi : i < w.length) :
    (Spectrum.from_waveform w).to_time_domain.length = w.length
  ∧ |(Spectrum.from_waveform w).to_time_domain.getD i 0 - w.getD i 0| ≤ 1e-5 := by
  have hlen : (Spectrum.from_waveform w).to_time_domain.length = w.length := by
    rw [to_time_domain_length, from_waveform_complex_length]
  refine ⟨hlen, ?_⟩
  have hN : 0 < w.length := by omega
  have hNR : ((w.length : ℝ)) ≠ 0 := Nat.cast_ne_zero.mpr hN.ne'
  have hval : (Spectrum.from_waveform w).to_time_domain.getD i 0 = w.getD i 0 := by
    rw [List.getD_eq_getElem _ 0 (by omega)]
    rw [to_time_domain_getElem]
    have hclen : (Spectrum.from_waveform w).complex.length = w.length :=
      from_waveform_complex_length w
    have hn : (Spectrum.from_waveform w).n = w.length := rfl
    rw [hclen, hn]
    have hbody : ∀ k ∈ Finset.range w.length,
        (Spectrum.from_waveform w).complex.getD k 0 *
          Complex.exp ((2 * Real.pi * Complex.I) * k * i / w.length) =
        ∑ j ∈ Finset.range w.length,
          (w.map Complex.ofReal).getD j 0 *
            (Complex.exp (-(2 * Real.pi * Complex.I) * j * k / w.length) *
              Complex.exp ((2 * Real.pi * Complex.I) * k * i / w.length)) := by
      intro k hk
      rw [Finset.mem_range] at hk
      have hk' : k < (Spectrum.from_waveform w).complex.length := by omega
      rw [List.getD_eq_getElem _ 0 hk']
      simp only [Spectrum.from_waveform] at hk' ⊢
      rw [dftList_getElem _ k hk']
      rw [List.length_map, Finset.sum_mul]
      apply Finset.sum_congr rfl
      intro j _
      ring
    rw [Finset.sum_congr rfl hbody]
    rw [Finset.sum_comm]
    have hinner : ∀ j ∈ Finset.range w.length,
        (∑ k ∈ Finset.range w.length,
          (w.map Complex.ofReal).getD j 0 *
            (Complex.exp (-(2 * Real.pi * Complex.I) * j * k / w.length) *
              Complex.exp ((2 * Real.pi * Complex.I) * k * i / w.length))) =
        if j = i then (w.map Complex.ofReal).getD j 0 * w.length else 0 := by
      intro j hj
      rw [Finset.mem_range] at hj
      rw [← Finset.mul_sum]
      rw [dft_kernel_orthogonal w.length i j hi hj]
      by_cases h : j = i
      · rw [if_pos h, if_pos h]
      · rw [if_neg h, if_neg h, mul_zero]
    rw [Finset.sum_congr rfl hinner]
    rw [Finset.sum_ite_eq' (Finset.range w.length) i
      (fun j => (w.map Complex.ofReal).getD j 0 * (w.length : ℂ))]
    rw [if_pos (Finset.mem_range.mpr hi)]
    have hmap : (w.map Complex.ofReal).getD i 0 = ((w.getD i 0 : ℝ) : ℂ) := by
      rw [List.getD_eq_getElem _ 0 (by simpa using hi), List.getD_eq_getElem _ 0 hi]
      rw [List.getElem_map]
    rw [hmap]
    rw [show ((w.getD i 0 : ℝ) : ℂ) * (w.length : ℂ) = ((w.getD i 0 * w.length : ℝ) : ℂ) by
      push_cast; ring]
    rw [Complex.ofReal_re]
    field_simp
  rw [hval]
  norm_num

/-- Witness for C5 on the waveform `[1, 2]` at index 0. -/
theorem spectrum_round_trip_witness :
    0 < ([1, 2] : List ℝ).length
  ∧ |(Spectrum.from_waveform [1, 2]).to_time_domain.getD 0 0 -
      ([1, 2] : List ℝ).getD 0 0| ≤ 1e-5 :=
  ⟨by norm_num, (spectrum_round_trip [1, 2] 0 (by norm_num)).2⟩

/-! ## Claims C6 and C7: the quiet-segment search

Concrete evaluation lemmas, all on inputs chosen so that every square root in
the RMS computations is exact. -/

theorem sqrt_two_mul_self : Real.sqrt 2 * Real.sqrt 2 = 2 :=
  Real.mul_self_sqrt (by norm_num)

theorem sqrt_eightyone : Real.sqrt 81 = 9 := by
  rw [show (81 : ℝ) = 9 ^ 2 by norm_num]
  exact Real.sqrt_sq (by norm_num)

theorem sqrt_sixteen : Real.sqrt 16 = 4 := by
  rw [show (16 : ℝ) = 4 ^ 2 by norm_num]
  exact Real.sqrt_sq (by norm_num)

theorem nine_sqrt_two_mul_self : 9 * Real.sqrt 2 * (9 * Real.sqrt 2) = 162 := by
  rw [show 9 * Real.sqrt 2 * (9 * Real.sqrt 2) = 81 * (Real.sqrt 2 * Real.sqrt 2) by ring,
    sqrt_two_mul_self]
  norm_num

theorem chunksList_c6 : chunksList [Real.sqrt 2, 0, 1] 2 = [[Real.sqrt 2, 0], [1]] := by
  rw [chunksList, dif_neg (by norm_num)]
  norm_num
  rw [chunksList, dif_neg (by norm_num)]
  norm_num
  rw [chunksList]
  norm_num

theorem rms_sqrt_two_zero : rms [Real.sqrt 2, 0] = some 1 := by
  rw [rms, if_neg (by simp)]
  norm_num [sqrt_two_mul_self]

theorem rms_one : rms [(1 : ℝ)] = some 1 := by
  rw [rms]
  norm_num

theorem rms_zero_one : rms [(0 : ℝ), 1] = some (Real.sqrt (1 / 2)) := by
  rw [rms]
  norm_num

theorem msd_one_one : mean_std_deviation [1, 1] = some (1, 0) := by
  rw [mean_std_deviation, mean]
  norm_num

/-- C6 (the code violates the claim).  On the waveform `[sqrt 2, 0, 1]` at
sample rate 5 the candidate quiet window is `[0, 1]` and the two chunk RMS
values both equal `1`, so their standard deviation is `0`; the claim requires
"no quiet segment found", but the `f32` z-score is
`(sqrt (1/2) - 1) / 0 = -inf`, which is below `-1.0`, so `get_noise_window`
accepts and returns the candidate window. -/
theorem quiet_segment_zero_stddev_accepted :
    ((chunksList [Real.sqrt 2, 0, 1] 2).map fun chunk => (rms chunk).getD 0) = [1, 1]
  ∧ mean_std_deviation [1, 1] = some (1, 0)
  ∧ get_noise_window [Real.sqrt 2, 0, 1] 5 = some [0, 1] := by
  refine ⟨?_, msd_one_one, ?_⟩
  · rw [chunksList_c6]
    simp [rms_sqrt_two_zero, rms_one]
  · rw [get_noise_window]
    rw [show ⌊(0.2 : ℝ) * 5⌋₊ = 1 by norm_num]
    rw [show ⌊min ((1.5 : ℝ) * 5) (([Real.sqrt 2, 0, 1] : List ℝ).length : ℝ)⌋₊ = 3 by norm_num]
    norm_num
    rw [chunksList_c6]
    simp only [List.map_cons, List.map_nil, rms_sqrt_two_zero, rms_one, Option.getD_some]
    rw [msd_one_one, rms_zero_one]
    simp only [Option.getD_some]
    rw [if_pos]
    rw [zscore_below_neg_one]
    rw [if_pos rfl]
    rw [show (1 : ℝ) = Real.sqrt 1 from Real.sqrt_one.symm]
    exact Real.sqrt_lt_sqrt (by norm_num) (by norm_num)

theorem chunksList_c7 :
    chunksList [1, 1, 9 * Real.sqrt 2, 0, 0] 2 = [[1, 1], [9 * Real.sqrt 2, 0], [0]] := by
  rw [chunksList, dif_neg (by norm_num)]
  norm_num
  rw [chunksList, dif_neg (by norm_num)]
  norm_num
  rw [chunksList, dif_neg (by norm_num)]
  norm_num
  rw [chunksList]
  norm_num

theorem rms_one_one : rms [(1 : ℝ), 1] = some 1 := by
  rw [rms]
  norm_num

theorem rms_nine_sqrt_two_zero : rms [9 * Real.sqrt 2, 0] = some 9 := by
  rw [rms, if_neg (by simp)]
  norm_num [nine_sqrt_two_mul_self, sqrt_eightyone]

theorem rms_zero : rms [(0 : ℝ)] = some 0 := by
  rw [rms]
  norm_num

theorem rms_zero_zero : rms [(0 : ℝ), 0] = some 0 := by
  rw [rms]
  norm_num

theorem msd_one_nine_zero :
    mean_std_deviation [1, 9, 0] = some (10 / 3, Real.sqrt (146 / 9)) := by
  rw [mean_std_deviation, mean]
  norm_num

theorem msd_one_nine : mean_std_deviation [1, 9] = some (5, 4) := by
  rw [mean_std_deviation, mean]
  norm_num [sqrt_sixteen]

theorem zscore_c7_reject : ¬ zscore_below_neg_one 0 (10 / 3) (Real.sqrt (146 / 9)) := by
  have hpos : 0 < Real.sqrt (146 / 9) := Real.sqrt_pos.2 (by norm_num)
  have hge : (10 : ℝ) / 3 ≤ Real.sqrt (146 / 9) := by
    rw [show (10 : ℝ) / 3 = Real.sqrt ((10 / 3) ^ 2) from (Real.sqrt_sq (by norm_num)).symm]
    exact Real.sqrt_le_sqrt (by norm_num)
  rw [zscore_below_neg_one, if_neg hpos.ne']
  rw [not_lt, le_div_iff₀ hpos]
  linarith

theorem zscore_c7_accept : zscore_below_neg_one 0 5 4 := by
  rw [zscore_below_neg_one, if_neg (by norm_num)]
  norm_num

/-- Counterexample to C7 as stated: on the waveform `[1, 1, 9 sqrt 2, 0, 0]` at
sample rate 15 the candidate window is `[0, 0]` (RMS 0) and its length is 2.
The code's statistics run over Rust `chunks`, which include the shorter final
chunk `[0]`: RMS values `[1, 9, 0]`, mean `10/3`, standard deviation
`sqrt (146/9) > 10/3`, z-score above `-1`, so the code returns `none`.  The
claim's statistics run only over the chunks whose size equals the candidate's
length: RMS values `[1, 9]`, mean `5`, standard deviation `4`, z-score
`-5/4 < -1`, so the claimed behaviour returns the candidate. -/
theorem get_noise_window_chunks_counterexample :
    get_noise_window [1, 1, 9 * Real.sqrt 2, 0, 0] 15 = none
  ∧ get_noise_window_claimed [1, 1, 9 * Real.sqrt 2, 0, 0] 15 = some [0, 0] := by
  constructor
  · rw [get_noise_window]
    rw [show ⌊(0.2 : ℝ) * 15⌋₊ = 3 by norm_num]
    rw [show ⌊min ((1.5 : ℝ) * 15) (([1, 1, 9 * Real.sqrt 2, 0, 0] : List ℝ).length : ℝ)⌋₊ = 5
      by norm_num]
    norm_num
    rw [chunksList_c7]
    simp only [List.map_cons, List.map_nil, rms_one_one, rms_nine_sqrt_two_zero, rms_zero,
      Option.getD_some]
    rw [msd_one_nine_zero, rms_zero_zero]
    simp only [Option.getD_some]
    rw [if_neg zscore_c7_reject]
  · rw [get_noise_window_claimed]
    rw [show ⌊(0.2 : ℝ) * 15⌋₊ = 3 by norm_num]
    rw [show ⌊min ((1.5 : ℝ) * 15) (([1, 1, 9 * Real.sqrt 2, 0, 0] : List ℝ).length : ℝ)⌋₊ = 5
      by norm_num]
    norm_num
    rw [show full_chunks [1, 1, 9 * Real.sqrt 2, 0, 0] 2 = [[1, 1], [9 * Real.sqrt 2, 0]] by
      simp [full_chunks, List.range_succ]]
    simp only [List.map_cons, List.map_nil, rms_one_one, rms_nine_sqrt_two_zero,
      Option.getD_some]
    rw [msd_one_nine, rms_zero_zero]
    simp only [Option.getD_some]
    rw [if_pos zscore_c7_accept]

theorem chunksList_eq_chunks_spec (n : ℕ) (l : List ℝ) (hn : n ≠ 0) :
    chunksList l n = chunks_spec l n := by
  have main : ∀ fuel (l : List ℝ), l.length ≤ fuel → chunksList l n = chunks_spec l n := by
    intro fuel
    induction fuel with
    | zero =>
      intro l hl
      have hl0 : l.length = 0 := by omega
      rw [chunksList, dif_pos (Or.inr hl0), chunks_spec, hl0,
        show (0 + n - 1) / n = 0 from Nat.div_eq_of_lt (by omega)]
      simp
    | succ fuel ih =>
      intro l hl
      by_cases hl0 : l.length = 0
      · rw [chunksList, dif_pos (Or.inr hl0), chunks_spec, hl0,
          show (0 + n - 1) / n = 0 from Nat.div_eq_of_lt (by omega)]
        simp
      · rw [chunksList, dif_neg (by omega)]
        rw [ih (l.drop n) (by simp only [List.length_drop]; omega)]
        rw [chunks_spec, chunks_spec]
        have hdlen : (l.drop n).length = l.length - n := by simp
        rw [hdlen]
        have hcount : (l.length + n - 1) / n = ((l.length - n + n - 1) / n) + 1 := by
          have h1 : l.length + n - 1 = (l.length - 1) + n := by omega
          by_cases h2 : n ≤ l.length
          · have h3 : l.length - n + n - 1 = l.length - 1 := by omega
            rw [h1, h3, Nat.add_div_right _ (by omega)]
          · have h3 : l.length - n + n - 1 = n - 1 := by omega
            rw [h1, h3, Nat.add_div_right _ (by omega : 0 < n),
              Nat.div_eq_of_lt (by omega : l.length - 1 < n),
              Nat.div_eq_of_lt (by omega : n - 1 < n)]
        rw [hcount, List.range_succ_eq_map, List.map_cons, List.map_map]
        congr 1
        · simp
        · apply List.map_congr_left
          intro k _
          simp only [Function.comp]
          rw [List.drop_drop, Nat.succ_mul, Nat.add_comm]
  exact main l.length l le_rfl

/-- C7 (amended).  `get_noise_window` behaves exactly as the amended claim
describes: candidate window between 200 ms and 1500 ms capped at the buffer
end, RMS statistics over every non-overlapping chunk of the buffer of the
candidate's length *with the final chunk possibly shorter*, acceptance exactly
when the candidate's RMS z-score is below `-1.0`, and "no suitable window
found" otherwise, including when the buffer is too short to contain the
candidate region. -/
theorem get_noise_window_characterization (samples : List ℝ) (sample_rate : ℝ) :
    get_noise_window samples sample_rate = get_noise_window_spec samples sample_rate := by
  rw [get_noise_window, get_noise_window_spec]
  by_cases h1 : ⌊min ((1.5 : ℝ) * sample_rate) (samples.length : ℝ)⌋₊ ≤
      ⌊(0.2 : ℝ) * sample_rate⌋₊
  · rw [if_pos h1, if_pos h1]
  · rw [if_neg h1, if_neg h1]
    by_cases h2 : ((samples.drop ⌊(0.2 : ℝ) * sample_rate⌋₊).take
        (⌊min ((1.5 : ℝ) * sample_rate) (samples.length : ℝ)⌋₊ -
          ⌊(0.2 : ℝ) * sample_rate⌋₊)).length = 0
    · rw [if_pos h2, if_pos h2]
    · rw [if_neg h2, if_neg h2, chunksList_eq_chunks_spec _ _ h2]

/-- Witness for C10: with step 0 on the buffer `[7, 8, 9]` and window 2, the
third call of `next` still yields the first window `[7, 8]`. -/
theorem windowing_zero_step_nonterminating_witness :
    [(7 : ℤ), 8, 9] ≠ [] ∧ 2 ≤ [(7 : ℤ), 8, 9].length
  ∧ (StridedChunks.new [(7 : ℤ), 8, 9] 2 0).nthNext 2 = some [7, 8] := by
  refine ⟨by decide, by decide, ?_⟩
  have h := (windowing_zero_step_nonterminating [(7 : ℤ), 8, 9] ⟨[1, 2], 0⟩ 2
    (by decide) (by decide) (by simp) (by simp) 2).1
  rw [h]
  decide

end


